import Mathlib

/-!
Verification of the quiz/assignment generation engine (`QuizGenerator` in
`app.py`) against its specification.

The Python class is shallowly embedded as pure Lean functions.  Python's
implicit global random source is modelled by an explicit list of natural
number draws (`List Nat`): each primitive random operation reads draws from
the front of the list, and callers advance the list by the number of draws
consumed.  Quantifying over all draw lists covers every behaviour of the
random source:

* `random.choice(seq)` is modelled by `pyChoice`: one draw `n` selects
  element `n % len(seq)`; every element is selected by some draw.
* `random.shuffle(seq)` (a uniformly random permutation, Fisher-Yates in
  CPython) is modelled by `pyShuffle`: one draw per element repeatedly
  selects which remaining element comes next.  Every permutation of the
  input arises from some draw list, and every draw list yields a
  permutation of the input.
* `random.sample(pop, 2)` (sampling without replacement) is modelled by
  `pySample2`: one draw picks the first element, a second draw picks the
  second element from the remaining ones.

Strings are handled through their underlying `List Char`.  `text.lower()`
is modelled with `Char.toLower` (the ASCII case mapping, which is what
Python's `str.lower` does on ASCII input), `str.strip()` by `pyStrip`
(dropping whitespace from both ends), and `sentence[:50]` by `take50`.

`re.findall(r'\b[a-zA-Z]+\b', text)` is modelled by `words`.  In Python's
`re`, `\b` is a boundary between a word character (`[a-zA-Z0-9_]`, for
ASCII input) and a non-word character.  Consequently a match of
`\b[a-zA-Z]+\b` is exactly a maximal run of word characters that consists
entirely of letters: a run of letters directly adjacent to a digit or an
underscore has no word boundary next to it and produces no match at all.
`words` therefore splits the lowered text into maximal word-character runs
(`splitRuns` on the non-word characters, mirroring how the regex engine
scans the text) and keeps the nonempty runs made of letters only.

`re.split(r'[.!?]+', text)` is modelled by `splitRuns isSentenceDelim`:
pieces between maximal runs of the delimiter characters, with empty pieces
at the borders exactly as `re.split` produces them.

Python's `sorted(term_freq.items(), key=lambda x: x[1], reverse=True)` is a
stable descending sort of the insertion-ordered dict items.  A stable
descending sort by count of a list enumerated in order is the unique
reordering that is sorted by (count descending, original position
ascending); `sortFreq` is an insertion sort with exactly that comparison
(`freqBefore`) over the position-tagged items (`withRanks`), and hence
agrees with Python's sort.
-/

set_option maxHeartbeats 1000000

namespace QuizGen

/-- Remove and return the element at position `i`, together with the rest of
the list. -/
def pickOut {α : Type} : List α → Nat → Option (α × List α)
  | [], _ => none
  | x :: xs, 0 => some (x, xs)
  | x :: xs, n + 1 =>
    match pickOut xs n with
    | some (y, ys) => some (y, x :: ys)
    | none => none

/-- Repeatedly pick a draw-selected element of the remaining list as the next
element of the output.  The fuel argument is always called with the length of
the list, so the fuel-exhausted branch is unreachable. -/
def shuffleGo {α : Type} : Nat → List α → List Nat → List α
  | 0, l, _ => l
  | n + 1, l, r =>
    match pickOut l (r.headD 0 % l.length) with
    | some (y, ys) => y :: shuffleGo n ys r.tail
    | none => []

/-- Model of `random.shuffle`: a draw-determined permutation of the list,
consuming `l.length` draws. -/
def pyShuffle {α : Type} (l : List α) (r : List Nat) : List α :=
  shuffleGo l.length l r

/-- Model of `random.choice`: the first draw selects an element (index modulo
the length).  Consumes one draw.  Only ever applied to nonempty lists, as in
the source. -/
def pyChoice (l : List String) (r : List Nat) : String :=
  l.getD (r.headD 0 % l.length) ""

/-- Model of `random.sample(l, 2)`: two draws select two distinct positions
(the second from the list with the first element removed).  Consumes two
draws. -/
def pySample2 (l : List String) (r : List Nat) : List String :=
  match pickOut l (r.headD 0 % l.length) with
  | some (x, rest) => [x, rest.getD (r.tail.headD 0 % rest.length) ""]
  | none => []

/-- Model of `list.index(a)`: position of the first occurrence of `a`. -/
def listIndex (a : String) : List String → Nat
  | [] => 0
  | x :: xs => if x = a then 0 else listIndex a xs + 1

/-- Split a character list at maximal runs of characters satisfying `p`
(delimiters consumed), keeping the empty border pieces, exactly like
`re.split(r'[D]+', text)`.  `inDelim` records whether we are inside a
delimiter run (whose piece has already been emitted); `acc` is the current
piece, reversed. -/
def splitRunsGo (p : Char → Bool) : Bool → List Char → List Char → List (List Char)
  | _, acc, [] => [acc.reverse]
  | inDelim, acc, c :: cs =>
    if p c then
      if inDelim then splitRunsGo p true [] cs
      else acc.reverse :: splitRunsGo p true [] cs
    else splitRunsGo p false (c :: acc) cs

/-- Split at maximal runs of characters satisfying `p`. -/
def splitRuns (p : Char → Bool) (l : List Char) : List (List Char) :=
  splitRunsGo p false [] l

/-- Whitespace for `str.strip()` (ASCII whitespace: space, tab, newline,
carriage return, vertical tab, form feed). -/
def isPySpace (c : Char) : Bool :=
  c = ' ' || c = '\t' || c = '\n' || c = '\r' || c.toNat = 11 || c.toNat = 12

/-- Model of `str.strip()`: drop whitespace from both ends. -/
def pyStrip (l : List Char) : List Char :=
  ((l.dropWhile isPySpace).reverse.dropWhile isPySpace).reverse

/-- A regex word character `\w` for ASCII input: letter, digit or
underscore. -/
def isWordChar (c : Char) : Bool :=
  c.isAlphanum || c = '_'

/-- Model of `sentence[:50]`: the first 50 characters. -/
def take50 (s : String) : String :=
  ⟨s.data.take 50⟩

/-- The stopword set of `extract_key_terms` (`app.py` lines 33-36). -/
def stopwords : List String :=
  ["the", "a", "an", "and", "or", "but", "in", "on", "at", "to", "for",
   "of", "with", "by", "is", "are", "was", "were", "be", "been", "being",
   "have", "has", "had", "do", "does", "did", "will", "would", "could",
   "should", "may", "might", "must", "can", "this", "that", "these", "those"]

/-- Model of `re.findall(r'\b[a-zA-Z]+\b', text.lower())` (`app.py` line 39):
the maximal word-character runs of the lowered text that are nonempty and
consist of letters only (see the header comment for why this is what the
regex matches). -/
def words (text : String) : List String :=
  ((splitRuns (fun c => !isWordChar c) (text.data.map Char.toLower)).filter
    (fun w => !w.isEmpty && w.all Char.isAlpha)).map (fun w => (⟨w⟩ : String))

/-- The `key_terms` list of `extract_key_terms` (`app.py` line 42): words
that are not stopwords and have length > 3. -/
def key_terms (text : String) : List String :=
  (words text).filter (fun w => !(stopwords.contains w) && decide (3 < w.length))

/-- One step of the frequency-dict loop: `term_freq[term] = term_freq.get(term, 0) + 1`
on an insertion-ordered association list. -/
def bump (t : String) : List (String × Nat) → List (String × Nat)
  | [] => [(t, 1)]
  | (s, c) :: rest => if s = t then (s, c + 1) :: rest else (s, c) :: bump t rest

/-- The frequency dict of `extract_key_terms` (`app.py` lines 45-47), as an
association list in key insertion order (Python dicts preserve insertion
order). -/
def buildFreq (l : List String) : List (String × Nat) :=
  l.foldl (fun acc t => bump t acc) []

/-- Dict lookup with default 0 (`term_freq.get(term, 0)`), used to
characterise `buildFreq`. -/
def lookupCount : List (String × Nat) → String → Nat
  | [], _ => 0
  | (s, c) :: rest, t => if s = t then c else lookupCount rest t

/-- First occurrences of the elements of a list that are not in `seen`, in
order; characterises the key order of `buildFreq`. -/
def dedupFirstEx (seen : List String) : List String → List String
  | [] => []
  | t :: ts => if t ∈ seen then dedupFirstEx seen ts else t :: dedupFirstEx (t :: seen) ts

/-- Tag each dict item with its position (insertion rank). -/
def withRanks : Nat → List (String × Nat) → List (Nat × String × Nat)
  | _, [] => []
  | i, (t, c) :: rest => (i, t, c) :: withRanks (i + 1) rest

/-- The comparison realised by Python's stable `sorted(..., key=lambda x: x[1],
reverse=True)` on position-tagged items: higher count first, ties by original
position. -/
def freqBefore (a b : Nat × String × Nat) : Prop :=
  b.2.2 < a.2.2 ∨ (a.2.2 = b.2.2 ∧ a.1 ≤ b.1)

instance freqBefore.instDecidable (a b : Nat × String × Nat) :
    Decidable (freqBefore a b) := by
  unfold freqBefore
  exact inferInstance

/-- Insert into a `freqBefore`-sorted list. -/
def insSorted (x : Nat × String × Nat) :
    List (Nat × String × Nat) → List (Nat × String × Nat)
  | [] => [x]
  | y :: ys => if freqBefore x y then x :: y :: ys else y :: insSorted x ys

/-- Sort by `freqBefore` (insertion sort; agrees with Python's stable
descending sort, see header comment). -/
def sortFreq : List (Nat × String × Nat) → List (Nat × String × Nat)
  | [] => []
  | x :: xs => insSorted x (sortFreq xs)

/-- The `sorted_terms` list of `extract_key_terms` (`app.py` line 50). -/
def rankedTerms (text : String) : List (Nat × String × Nat) :=
  sortFreq (withRanks 0 (buildFreq (key_terms text)))

/-- `extract_key_terms` (`app.py` lines 30-51): top 10 terms by descending
frequency. -/
def extract_key_terms (text : String) : List String :=
  ((rankedTerms text).take 10).map (fun x => x.2.1)

/-- The sentence delimiters of `extract_sentences`. -/
def isSentenceDelim (c : Char) : Bool :=
  c = '.' || c = '!' || c = '?'

/-- `extract_sentences` (`app.py` lines 53-56): split on `[.!?]+`, strip each
piece, keep the pieces whose stripped length exceeds 10.  (The Python list
comprehension strips twice; stripping once and filtering the stripped piece
is the same function.) -/
def extract_sentences (text : String) : List String :=
  (((splitRuns isSentenceDelim text.data).map pyStrip).filter
    (fun s => decide (10 < s.length))).map (fun s => (⟨s⟩ : String))

/-- `extract_main_subject` (`app.py` lines 74-80). -/
def extract_main_subject (text : String) : String :=
  match extract_key_terms text with
  | [] => "the given content"
  | t :: _ => "the concept of " ++ t

/-- The assignment template pool (`app.py` lines 8-17).  `\x7b\x7d` is the
format placeholder of each template. -/
def assignment_templates : List String :=
  ["Analyze the main themes in the following content: \x7b\x7d",
   "Discuss the key concepts and their relationships in: \x7b\x7d",
   "Evaluate the arguments presented in: \x7b\x7d",
   "Compare and contrast different viewpoints on: \x7b\x7d",
   "Explain the significance and implications of: \x7b\x7d",
   "Critically examine the evidence presented for: \x7b\x7d",
   "Describe the process or methodology outlined in: \x7b\x7d",
   "Assess the strengths and weaknesses of: \x7b\x7d"]

/-- The question starter pool (`app.py` lines 19-28); present in the source
but not used by the generation logic. -/
def question_starters : List String :=
  ["What is the main", "Which of the following", "According to the text",
   "The primary purpose", "What does the author", "Which statement best",
   "The text suggests that", "What can be inferred"]

/-- Replace the first `\x7b\x7d` placeholder by `sub`, as `str.format` does
with one positional argument on a template with a single placeholder. -/
def replaceBraces (sub : List Char) : List Char → List Char
  | [] => []
  | [c] => [c]
  | c :: d :: rest =>
    if c = '\x7b' ∧ d = '\x7d' then sub ++ rest
    else c :: replaceBraces sub (d :: rest)

/-- `template.format(subject)` for the single-placeholder templates. -/
def fillTemplate (tmpl subject : String) : String :=
  ⟨replaceBraces subject.data tmpl.data⟩

/-- The resolved subject: `topic if topic else self.extract_main_subject(text)`
(`app.py` line 63).  A Python `topic` of `None` or `""` is falsy, so both the
absent topic and the empty topic fall back to `extract_main_subject`. -/
def resolveSubject (text : String) (topic : Option String) : String :=
  match topic with
  | some t => if t = "" then extract_main_subject text else t
  | none => extract_main_subject text

/-- `generate_assignments` (`app.py` lines 58-72): resolve the subject once,
sample two distinct templates, fill each with the subject. -/
def generate_assignments (text : String) (topic : Option String) (r : List Nat) :
    List String :=
  (pySample2 assignment_templates r).map
    (fun tmpl => fillTemplate tmpl (resolveSubject text topic))

/-- The question dict returned by the strategies (`app.py`): question text,
options, 0-based index of the correct option, explanation. -/
structure QuestionRecord where
  question : String
  options : List String
  correct_answer : Nat
  explanation : String
deriving DecidableEq

/-- A junk record used only as the default of `List.getD`. -/
def emptyRecord : QuestionRecord :=
  { question := "", options := [], correct_answer := 0, explanation := "" }

/-- Options of `create_fallback_question` (`app.py` lines 186-191). -/
def fallbackOptions : List String :=
  ["It contains informative content", "It is completely empty",
   "It consists only of numbers", "It is written in a foreign language"]

/-- `create_fallback_question` (`app.py` lines 182-198): a fixed record with
correct index 0; its `sentences` argument is ignored. -/
def create_fallback_question (_sentences : List String) : QuestionRecord :=
  { question := "What is the primary characteristic of the provided text?"
    options := fallbackOptions
    correct_answer := 0
    explanation := "The text provides information that can be analyzed." }

/-- The designated correct answer of the definition strategy (`app.py`
line 118). -/
def definitionCorrect (term : String) : String :=
  "The text discusses " ++ term ++ " in the context provided"

/-- The pre-shuffle option list of the definition strategy (`app.py`
lines 119-124). -/
def definitionOptions (term : String) : List String :=
  [definitionCorrect term,
   term ++ " is completely unrelated to the main topic",
   term ++ " is mentioned only in passing without significance",
   "The text contradicts common understanding of " ++ term]

/-- `create_definition_question` (`app.py` lines 108-134).  Returns the record
and the advanced draw list (one draw for the term choice, four for the
shuffle). -/
def create_definition_question (sentences key_terms : List String) (r : List Nat) :
    QuestionRecord × List Nat :=
  if key_terms = [] then (create_fallback_question sentences, r)
  else
    let term := pyChoice (key_terms.take 5) r
    let r1 := r.tail
    let options := definitionOptions term
    let shuffled := pyShuffle options r1
    let r2 := r1.drop options.length
    ({ question := "What is the main focus regarding \x27" ++ term ++ "\x27 in the text?"
       options := shuffled
       correct_answer := listIndex (definitionCorrect term) shuffled
       explanation := "The correct answer focuses on how " ++ term ++ " relates to the main content." },
     r2)

/-- The designated correct answer of the comprehension strategy (`app.py`
line 146). -/
def comprehensionCorrect (sentence : String) : String :=
  "The text mentions: " ++ take50 sentence ++ "..."

/-- The pre-shuffle option list of the comprehension strategy (`app.py`
lines 147-152). -/
def comprehensionOptions (sentence : String) : List String :=
  [comprehensionCorrect sentence,
   "The text primarily focuses on historical events",
   "The content is mainly theoretical without practical application",
   "The text contradicts established principles in the field"]

/-- `create_comprehension_question` (`app.py` lines 136-162). -/
def create_comprehension_question (sentences _key_terms : List String) (r : List Nat) :
    QuestionRecord × List Nat :=
  if sentences = [] then (create_fallback_question sentences, r)
  else
    let sentence := pyChoice (sentences.take 3) r
    let r1 := r.tail
    let options := comprehensionOptions sentence
    let shuffled := pyShuffle options r1
    let r2 := r1.drop options.length
    ({ question := "According to the text, which statement is most accurate?"
       options := shuffled
       correct_answer := listIndex (comprehensionCorrect sentence) shuffled
       explanation := "This option best reflects the content mentioned in the text." },
     r2)

/-- The fixed option list of the inference strategy (`app.py` lines 168-173). -/
def inferenceOptions : List String :=
  ["The content provides informative material on the topic",
   "The text is purely fictional with no factual basis",
   "The content contradicts all established knowledge",
   "The text is primarily focused on entertainment"]

/-- `create_inference_question` (`app.py` lines 164-180): fixed record, no
randomness, correct index 0. -/
def create_inference_question (_sentences _key_terms : List String) (r : List Nat) :
    QuestionRecord × List Nat :=
  ({ question := "What can be inferred from the overall content?"
     options := inferenceOptions
     correct_answer := 0
     explanation := "This inference is most reasonable based on the informative nature of the content." },
   r)

/-- `create_question` (`app.py` lines 96-106): dispatch over
`question_types[question_num % 3]`. -/
def create_question (sentences key_terms : List String) (question_num : Nat)
    (r : List Nat) : QuestionRecord × List Nat :=
  match question_num % 3 with
  | 0 => create_definition_question sentences key_terms r
  | 1 => create_comprehension_question sentences key_terms r
  | _ => create_inference_question sentences key_terms r

/-- The `for i in range(3)` loop of `generate_quiz_questions` (`app.py`
lines 90-92), threading the draw list. -/
def questionsFrom (sentences key_terms : List String) :
    Nat → Nat → List Nat → List QuestionRecord
  | _, 0, _ => []
  | i, n + 1, r =>
    let qr := create_question sentences key_terms i r
    qr.1 :: questionsFrom sentences key_terms (i + 1) n qr.2

/-- `generate_quiz_questions` (`app.py` lines 82-94). -/
def generate_quiz_questions (text : String) (r : List Nat) : List QuestionRecord :=
  questionsFrom (extract_sentences text) (extract_key_terms text) 0 3 r

/-- The draw list remaining after the definition slot has run. -/
def streamAfterDefinition (key_terms : List String) (r : List Nat) : List Nat :=
  if key_terms = [] then r else (r.tail).drop 4

/-- The designated correct answer text of question slot `i` of
`generate_quiz_questions`, computed exactly as the source computes its
`correct_answer` strings (fallback first option when a strategy falls back). -/
def designatedAnswer (sentences key_terms : List String) (r : List Nat) :
    Nat → String
  | 0 =>
    if key_terms = [] then "It contains informative content"
    else definitionCorrect (pyChoice (key_terms.take 5) r)
  | 1 =>
    let r0 := streamAfterDefinition key_terms r
    if sentences = [] then "It contains informative content"
    else comprehensionCorrect (pyChoice (sentences.take 3) r0)
  | _ => "The content provides informative material on the topic"

/-- Frequency of a term among the filtered tokens of the text. -/
def freqIn (text : String) (t : String) : Nat :=
  (key_terms text).count t

/-- Position of the first occurrence of a term among the filtered tokens of
the text (tokens are listed in document order, so this orders terms by first
occurrence in the text). -/
def firstPos (text : String) (t : String) : Nat :=
  listIndex t (key_terms text)

/-! ### Character facts -/

theorem uint32_le_iff (a b : UInt32) : a ≤ b ↔ a.toNat ≤ b.toNat := Iff.rfl

theorem char_toNat_val (c : Char) : c.val.toNat = c.toNat := rfl

theorem isLower_iff (c : Char) : c.isLower = true ↔ 97 ≤ c.toNat ∧ c.toNat ≤ 122 := by
  simp only [Char.isLower, Bool.and_eq_true, decide_eq_true_eq, ge_iff_le, uint32_le_iff,
    char_toNat_val]
  have e1 : (97 : UInt32).toNat = 97 := rfl
  have e2 : (122 : UInt32).toNat = 122 := rfl
  rw [e1, e2]

theorem isUpper_iff (c : Char) : c.isUpper = true ↔ 65 ≤ c.toNat ∧ c.toNat ≤ 90 := by
  simp only [Char.isUpper, Bool.and_eq_true, decide_eq_true_eq, ge_iff_le, uint32_le_iff,
    char_toNat_val]
  have e1 : (65 : UInt32).toNat = 65 := rfl
  have e2 : (90 : UInt32).toNat = 90 := rfl
  rw [e1, e2]

theorem isDigit_iff (c : Char) : c.isDigit = true ↔ 48 ≤ c.toNat ∧ c.toNat ≤ 57 := by
  simp only [Char.isDigit, Bool.and_eq_true, decide_eq_true_eq, ge_iff_le, uint32_le_iff,
    char_toNat_val]
  have e1 : (48 : UInt32).toNat = 48 := rfl
  have e2 : (57 : UInt32).toNat = 57 := rfl
  rw [e1, e2]

theorem isAlpha_iff (c : Char) :
    c.isAlpha = true ↔ (65 ≤ c.toNat ∧ c.toNat ≤ 90) ∨ (97 ≤ c.toNat ∧ c.toNat ≤ 122) := by
  simp only [Char.isAlpha, Bool.or_eq_true, isUpper_iff, isLower_iff]

theorem toNat_ofNat_lt {n : Nat} (h : n < 55296) : (Char.ofNat n).toNat = n := by
  unfold Char.ofNat
  rw [dif_pos (Or.inl h)]
  rfl

theorem toLower_toNat (c : Char) :
    (Char.toLower c).toNat =
      if 65 ≤ c.toNat ∧ c.toNat ≤ 90 then c.toNat + 32 else c.toNat := by
  by_cases h : 65 ≤ c.toNat ∧ c.toNat ≤ 90
  · rw [if_pos h]
    have e : Char.toLower c = Char.ofNat (c.toNat + 32) := by
      unfold Char.toLower
      exact if_pos h
    rw [e]
    exact toNat_ofNat_lt (by omega)
  · rw [if_neg h]
    have e : Char.toLower c = c := by
      unfold Char.toLower
      exact if_neg h
    rw [e]

theorem toLower_isLower_of_isAlpha {c : Char} (h : (Char.toLower c).isAlpha = true) :
    (Char.toLower c).isLower = true := by
  rw [isAlpha_iff, toLower_toNat] at h
  rw [isLower_iff, toLower_toNat]
  split at h <;> [skip; skip] <;> split <;> omega

theorem isDigit_false_of_isLower {c : Char} (h : c.isLower = true) : c.isDigit = false := by
  rw [isLower_iff] at h
  rw [Bool.eq_false_iff]
  intro hd
  rw [isDigit_iff] at hd
  omega

theorem ne_T_of_isLower {c : Char} (h : c.isLower = true) : c ≠ 'T' := by
  rw [isLower_iff] at h
  intro he
  subst he
  revert h
  decide

/-! ### Lemmas about the random primitives -/

theorem pickOut_some {α : Type} :
    ∀ (l : List α) (i : Nat), i < l.length →
      ∃ y ys, pickOut l i = some (y, ys) ∧ l.Perm (y :: ys)
  | [], i, h => absurd h (by simp)
  | x :: xs, 0, _ => ⟨x, xs, rfl, List.Perm.refl _⟩
  | x :: xs, n + 1, h => by
    obtain ⟨y, ys, hp, hperm⟩ := pickOut_some xs n (by simpa using Nat.lt_of_succ_lt_succ h)
    refine ⟨y, x :: ys, by simp [pickOut, hp], ?_⟩
    exact (hperm.cons x).trans (List.Perm.swap y x ys)

theorem shuffleGo_perm {α : Type} :
    ∀ (n : Nat) (l : List α) (r : List Nat), l.length ≤ n → (shuffleGo n l r).Perm l
  | 0, l, _, _ => List.Perm.refl l
  | n + 1, l, r, h => by
    rcases l with _ | ⟨x, xs⟩
    · simp [shuffleGo, pickOut]
    · have hlt : r.headD 0 % (x :: xs).length < (x :: xs).length :=
        Nat.mod_lt _ (by simp)
      obtain ⟨y, ys, hp, hperm⟩ := pickOut_some (x :: xs) _ hlt
      have hlen : ys.length + 1 = xs.length + 1 := by
        simpa using hperm.length_eq.symm
      have hys : ys.length ≤ n := by
        simp only [List.length_cons] at h
        omega
      have e : shuffleGo (n + 1) (x :: xs) r =
          match pickOut (x :: xs) (r.headD 0 % (x :: xs).length) with
          | some (y, ys) => y :: shuffleGo n ys r.tail
          | none => [] := rfl
      rw [e, hp]
      exact ((shuffleGo_perm n ys r.tail hys).cons y).trans hperm.symm

theorem pyShuffle_perm {α : Type} (l : List α) (r : List Nat) : (pyShuffle l r).Perm l :=
  shuffleGo_perm _ _ _ (Nat.le_refl _)

theorem pyShuffle_mem {α : Type} {a : α} {l : List α} (r : List Nat) (h : a ∈ l) :
    a ∈ pyShuffle l r :=
  ((pyShuffle_perm l r).mem_iff).2 h

theorem pyChoice_mem {l : List String} (r : List Nat) (h : l ≠ []) :
    pyChoice l r ∈ l := by
  have hl : 0 < l.length := List.length_pos.2 h
  have hlt : r.headD 0 % l.length < l.length := Nat.mod_lt _ hl
  rw [pyChoice, List.getD_eq_getElem _ _ hlt]
  exact List.getElem_mem hlt

theorem listIndex_lt {a : String} : ∀ {l : List String}, a ∈ l → listIndex a l < l.length := by
  intro l h
  induction l with
  | nil => cases h
  | cons x xs ih =>
    by_cases hx : x = a
    · simp [listIndex, hx]
    · rcases List.mem_cons.1 h with h1 | h2
      · exact absurd h1.symm hx
      · simp only [listIndex, if_neg hx, List.length_cons]
        exact Nat.succ_lt_succ (ih h2)

theorem getD_listIndex {a d : String} :
    ∀ {l : List String}, a ∈ l → l.getD (listIndex a l) d = a := by
  intro l h
  induction l with
  | nil => cases h
  | cons x xs ih =>
    by_cases hx : x = a
    · simp [listIndex, hx]
    · rcases List.mem_cons.1 h with h1 | h2
      · exact absurd h1.symm hx
      · simp only [listIndex, if_neg hx, List.getD_cons_succ]
        exact ih h2

theorem listIndex_unique {a d : String} :
    ∀ {l : List String}, l.Nodup → ∀ {i : Nat}, i < l.length → l.getD i d = a →
      i = listIndex a l := by
  intro l hnd
  induction l with
  | nil => intro i hi; simp at hi
  | cons x xs ih =>
    intro i hi hg
    rcases i with _ | j
    · simp only [List.getD_cons_zero] at hg
      simp [listIndex, hg]
    · simp only [List.getD_cons_succ] at hg
      have hj : j < xs.length := Nat.lt_of_succ_lt_succ (by simpa using hi)
      have hmem : a ∈ xs := by
        rw [← hg, List.getD_eq_getElem _ _ hj]
        exact List.getElem_mem hj
      have hx : x ≠ a := by
        intro he
        exact (List.nodup_cons.1 hnd).1 (he ▸ hmem)
      simp only [listIndex, if_neg hx]
      have := ih (List.nodup_cons.1 hnd).2 hj hg
      omega

/-! ### Prefix-agreement lemmas: each primitive reads only the draws it
consumes, which is what makes replaying the random source reproduce the
output. -/

theorem take_succ_agree {r₁ r₂ : List Nat} {n : Nat}
    (h : r₁.take (n + 1) = r₂.take (n + 1)) :
    r₁.headD 0 = r₂.headD 0 ∧ r₁.tail.take n = r₂.tail.take n := by
  rcases r₁ with _ | ⟨a, as⟩ <;> rcases r₂ with _ | ⟨b, bs⟩
  · simp
  · simp [List.take_succ_cons] at h
  · simp [List.take_succ_cons] at h
  · simp only [List.take_succ_cons, List.cons.injEq] at h
    exact ⟨h.1, by simp [h.2]⟩

theorem take_mono_agree {r₁ r₂ : List Nat} {m n : Nat} (hmn : m ≤ n)
    (h : r₁.take n = r₂.take n) : r₁.take m = r₂.take m := by
  have e1 : r₁.take m = (r₁.take n).take m := by
    rw [List.take_take, Nat.min_eq_left hmn]
  have e2 : r₂.take m = (r₂.take n).take m := by
    rw [List.take_take, Nat.min_eq_left hmn]
  rw [e1, e2, h]

theorem drop_take_agree {r₁ r₂ : List Nat} {a b : Nat}
    (h : r₁.take (a + b) = r₂.take (a + b)) :
    (r₁.drop a).take b = (r₂.drop a).take b := by
  rw [List.take_drop, List.take_drop, h]

theorem shuffleGo_agree {α : Type} :
    ∀ (n : Nat) (l : List α) (r₁ r₂ : List Nat), r₁.take n = r₂.take n →
      shuffleGo n l r₁ = shuffleGo n l r₂
  | 0, _, _, _, _ => rfl
  | n + 1, l, r₁, r₂, h => by
    obtain ⟨h1, h2⟩ := take_succ_agree h
    have e₁ : shuffleGo (n + 1) l r₁ =
        match pickOut l (r₁.headD 0 % l.length) with
        | some (y, ys) => y :: shuffleGo n ys r₁.tail
        | none => [] := rfl
    have e₂ : shuffleGo (n + 1) l r₂ =
        match pickOut l (r₂.headD 0 % l.length) with
        | some (y, ys) => y :: shuffleGo n ys r₂.tail
        | none => [] := rfl
    rw [e₁, e₂, h1]
    cases hpk : pickOut l (r₂.headD 0 % l.length) with
    | none => rfl
    | some p =>
      obtain ⟨y, ys⟩ := p
      show y :: shuffleGo n ys r₁.tail = y :: shuffleGo n ys r₂.tail
      rw [shuffleGo_agree n ys r₁.tail r₂.tail h2]

theorem pyShuffle_agree {α : Type} {r₁ r₂ : List Nat} (l : List α)
    (h : r₁.take l.length = r₂.take l.length) : pyShuffle l r₁ = pyShuffle l r₂ :=
  shuffleGo_agree _ _ _ _ h

theorem pyChoice_agree {r₁ r₂ : List Nat} (l : List String)
    (h : r₁.take 1 = r₂.take 1) : pyChoice l r₁ = pyChoice l r₂ := by
  obtain ⟨h1, _⟩ := take_succ_agree (n := 0) h
  unfold pyChoice
  rw [h1]

theorem pySample2_agree {r₁ r₂ : List Nat} (l : List String)
    (h : r₁.take 2 = r₂.take 2) : pySample2 l r₁ = pySample2 l r₂ := by
  obtain ⟨h1, h2⟩ := take_succ_agree (n := 1) h
  obtain ⟨h3, _⟩ := take_succ_agree (n := 0) h2
  simp only [pySample2, h1, h3]

/-! ### Lemmas about `splitRuns` -/

theorem splitRunsGo_piece_within (p : Char → Bool) :
    ∀ (l : List Char) (b : Bool) (acc : List Char),
      ∀ piece ∈ splitRunsGo p b acc l, piece <:+: (acc.reverse ++ l) := by
  intro l
  induction l with
  | nil =>
    intro b acc piece hp
    simp only [splitRunsGo, List.mem_singleton] at hp
    subst hp
    simp
  | cons c cs ih =>
    intro b acc piece hp
    by_cases hc : p c
    · have hrest : ∀ q ∈ splitRunsGo p true [] cs, q <:+: (acc.reverse ++ c :: cs) := by
        intro q hq
        have h1 : q <:+: cs := by simpa using ih true [] q hq
        have h2 : cs <:+: (acc.reverse ++ c :: cs) :=
          ((List.suffix_cons c cs).trans (List.suffix_append acc.reverse (c :: cs))).isInfix
        exact h1.trans h2
      cases b with
      | true =>
        simp only [splitRunsGo, if_pos hc, if_pos rfl] at hp
        exact hrest piece hp
      | false =>
        simp only [splitRunsGo, if_pos hc] at hp
        rcases List.mem_cons.1 hp with h1 | h2
        · subst h1
          exact (List.prefix_append acc.reverse (c :: cs)).isInfix
        · exact hrest piece h2
    · simp only [splitRunsGo, if_neg hc] at hp
      have h1 := ih false (c :: acc) piece hp
      simpa [List.append_assoc] using h1

theorem splitRuns_piece_within (p : Char → Bool) (l : List Char) :
    ∀ piece ∈ splitRuns p l, piece <:+: l := by
  intro piece hp
  simpa using splitRunsGo_piece_within p l false [] piece hp

theorem splitRunsGo_all_not (p : Char → Bool) :
    ∀ (l : List Char) (b : Bool) (acc : List Char), (∀ c ∈ acc, p c = false) →
      ∀ piece ∈ splitRunsGo p b acc l, ∀ c ∈ piece, p c = false := by
  intro l
  induction l with
  | nil =>
    intro b acc hacc piece hp c hc
    simp only [splitRunsGo, List.mem_singleton] at hp
    subst hp
    exact hacc c (List.mem_reverse.1 hc)
  | cons x xs ih =>
    intro b acc hacc piece hp c hc
    by_cases hx : p x
    · have hrest : ∀ q ∈ splitRunsGo p true [] xs, ∀ c ∈ q, p c = false :=
        ih true [] (by simp)
      cases b with
      | true =>
        simp only [splitRunsGo, if_pos hx, if_pos rfl] at hp
        exact hrest piece hp c hc
      | false =>
        simp only [splitRunsGo, if_pos hx] at hp
        rcases List.mem_cons.1 hp with h1 | h2
        · subst h1
          exact hacc c (List.mem_reverse.1 hc)
        · exact hrest piece h2 c hc
    · simp only [splitRunsGo, if_neg hx] at hp
      have hacc2 : ∀ c ∈ x :: acc, p c = false := by
        intro d hd
        rcases List.mem_cons.1 hd with h1 | h2
        · subst h1
          simpa using hx
        · exact hacc d h2
      exact ih false (x :: acc) hacc2 piece hp c hc

theorem splitRuns_all_not (p : Char → Bool) (l : List Char) :
    ∀ piece ∈ splitRuns p l, ∀ c ∈ piece, p c = false :=
  splitRunsGo_all_not p l false [] (by simp)

/-! ### Lemmas about `pyStrip` -/

theorem dropWhile_idem (p : Char → Bool) :
    ∀ l : List Char, (l.dropWhile p).dropWhile p = l.dropWhile p := by
  intro l
  induction l with
  | nil => simp
  | cons c cs ih =>
    by_cases hc : p c
    · simp [List.dropWhile_cons, hc, ih]
    · simp [List.dropWhile_cons, hc]

theorem dropWhile_eq_self_of_prefix {p : Char → Bool} :
    ∀ {k m : List Char}, m.dropWhile p = m → k <+: m → k.dropWhile p = k := by
  intro k m hm hk
  rcases k with _ | ⟨c, k'⟩
  · simp
  · obtain ⟨t, ht⟩ := hk
    have hc : p c = false := by
      by_contra hcon
      have hc' : p c = true := by
        revert hcon
        cases p c <;> simp
      rw [← ht] at hm
      rw [List.cons_append, List.dropWhile_cons, if_pos hc'] at hm
      have hlen := congrArg List.length hm
      have hle := (List.dropWhile_sublist (l := k' ++ t) p).length_le
      rw [List.length_cons] at hlen
      omega
    rw [List.dropWhile_cons, if_neg (by simp [hc])]

theorem pyStrip_within (l : List Char) : pyStrip l <:+: l := by
  unfold pyStrip
  have h1 : l.dropWhile isPySpace <:+ l := List.dropWhile_suffix _
  have h2 : (l.dropWhile isPySpace).reverse.dropWhile isPySpace <:+
      (l.dropWhile isPySpace).reverse := List.dropWhile_suffix _
  have h3 : ((l.dropWhile isPySpace).reverse.dropWhile isPySpace).reverse <+:
      l.dropWhile isPySpace := by
    rw [← List.reverse_suffix]
    simpa using h2
  exact h3.isInfix.trans h1.isInfix

theorem pyStrip_idem (l : List Char) : pyStrip (pyStrip l) = pyStrip l := by
  have hA : (l.dropWhile isPySpace).dropWhile isPySpace = l.dropWhile isPySpace :=
    dropWhile_idem _ _
  have hpre : ((l.dropWhile isPySpace).reverse.dropWhile isPySpace).reverse <+:
      l.dropWhile isPySpace := by
    rw [← List.reverse_suffix]
    simpa using List.dropWhile_suffix (l := (l.dropWhile isPySpace).reverse) isPySpace
  have h1 : (pyStrip l).dropWhile isPySpace = pyStrip l :=
    dropWhile_eq_self_of_prefix hA hpre
  unfold pyStrip
  rw [show ((((l.dropWhile isPySpace).reverse.dropWhile isPySpace).reverse.dropWhile
      isPySpace)) = ((l.dropWhile isPySpace).reverse.dropWhile isPySpace).reverse from h1]
  rw [List.reverse_reverse]
  rw [dropWhile_idem]

theorem pyStrip_subset (l : List Char) : ∀ c ∈ pyStrip l, c ∈ l :=
  fun _ hc => (pyStrip_within l).subset hc

/-! ### Lemmas about template filling -/

theorem replaceBraces_cons_ne {c : Char} (h : c ≠ '\x7b') (sub rest : List Char) :
    replaceBraces sub (c :: rest) = c :: replaceBraces sub rest := by
  cases rest with
  | nil => rfl
  | cons d rest' =>
    show (if c = '\x7b' ∧ d = '\x7d' then sub ++ rest'
          else c :: replaceBraces sub (d :: rest')) = _
    rw [if_neg (by exact fun hx => h hx.1)]

theorem replaceBraces_placeholder (sub : List Char) :
    ∀ (pre tail : List Char), '\x7b' ∉ pre →
      replaceBraces sub (pre ++ '\x7b' :: '\x7d' :: tail) = pre ++ sub ++ tail := by
  intro pre
  induction pre with
  | nil =>
    intro tail _
    show (if ('\x7b' : Char) = '\x7b' ∧ ('\x7d' : Char) = '\x7d' then sub ++ tail
          else _) = _
    rw [if_pos ⟨rfl, rfl⟩]
    simp
  | cons c pre' ih =>
    intro tail hmem
    have hc : c ≠ '\x7b' := fun he => hmem (by simp [he])
    rw [List.cons_append, replaceBraces_cons_ne hc,
      ih tail (fun hx => hmem (List.mem_cons_of_mem c hx))]
    simp

/-- Every assignment template is a brace-free prefix followed by the
placeholder. -/
theorem template_shape :
    ∀ t ∈ assignment_templates,
      t.data = (t.data.take (t.data.length - 2)) ++ '\x7b' :: '\x7d' :: [] ∧
        '\x7b' ∉ (t.data.take (t.data.length - 2)) := by
  decide

theorem fillTemplate_data {t : String} (ht : t ∈ assignment_templates) (s : String) :
    (fillTemplate t s).data = (t.data.take (t.data.length - 2)) ++ s.data := by
  obtain ⟨h1, h2⟩ := template_shape t ht
  unfold fillTemplate
  conv =>
    lhs
    rw [h1]
  rw [replaceBraces_placeholder s.data _ [] h2]
  simp

theorem fillTemplate_contains {t : String} (ht : t ∈ assignment_templates) (s : String) :
    s.data <:+: (fillTemplate t s).data := by
  rw [fillTemplate_data ht s]
  exact ⟨t.data.take (t.data.length - 2), [], by simp⟩

theorem fillTemplate_inj {t₁ t₂ : String} (h₁ : t₁ ∈ assignment_templates)
    (h₂ : t₂ ∈ assignment_templates) (s : String)
    (he : fillTemplate t₁ s = fillTemplate t₂ s) : t₁ = t₂ := by
  have hd := congrArg String.data he
  rw [fillTemplate_data h₁ s, fillTemplate_data h₂ s] at hd
  have hpre := List.append_cancel_right hd
  apply String.ext
  rw [(template_shape t₁ h₁).1, (template_shape t₂ h₂).1, hpre]

/-! ### Lemmas about the frequency sort -/

theorem freqBefore_total (a b : Nat × String × Nat) : freqBefore a b ∨ freqBefore b a := by
  unfold freqBefore
  rcases Nat.lt_trichotomy a.2.2 b.2.2 with h | h | h
  · right
    exact Or.inl h
  · rcases Nat.le_total a.1 b.1 with h' | h'
    · left
      exact Or.inr ⟨h, h'⟩
    · right
      exact Or.inr ⟨h.symm, h'⟩
  · left
    exact Or.inl h

theorem freqBefore_trans {a b c : Nat × String × Nat}
    (h₁ : freqBefore a b) (h₂ : freqBefore b c) : freqBefore a c := by
  unfold freqBefore at h₁ h₂ ⊢
  rcases h₁ with h₁ | ⟨h₁, h₁'⟩ <;> rcases h₂ with h₂ | ⟨h₂, h₂'⟩
  · exact Or.inl (by omega)
  · exact Or.inl (by omega)
  · exact Or.inl (by omega)
  · exact Or.inr ⟨by omega, by omega⟩

theorem insSorted_perm (x : Nat × String × Nat) :
    ∀ l : List (Nat × String × Nat), (insSorted x l).Perm (x :: l) := by
  intro l
  induction l with
  | nil => simp [insSorted]
  | cons y ys ih =>
    by_cases h : freqBefore x y
    · simp [insSorted, if_pos h]
    · rw [insSorted, if_neg h]
      exact (ih.cons y).trans (List.Perm.swap x y ys)

theorem insSorted_pairwise {x : Nat × String × Nat} {l : List (Nat × String × Nat)}
    (hl : l.Pairwise freqBefore) : (insSorted x l).Pairwise freqBefore := by
  induction l with
  | nil => simp [insSorted]
  | cons y ys ih =>
    by_cases h : freqBefore x y
    · rw [insSorted, if_pos h]
      refine List.Pairwise.cons ?_ hl
      intro z hz
      rcases List.mem_cons.1 hz with h1 | h2
      · exact h1 ▸ h
      · exact freqBefore_trans h ((List.pairwise_cons.1 hl).1 z h2)
    · rw [insSorted, if_neg h]
      have hyx : freqBefore y x := (freqBefore_total x y).resolve_left h
      obtain ⟨hy, hys⟩ := List.pairwise_cons.1 hl
      refine List.Pairwise.cons ?_ (ih hys)
      intro z hz
      have hz' : z ∈ x :: ys := (insSorted_perm x ys).mem_iff.1 hz
      rcases List.mem_cons.1 hz' with h1 | h2
      · exact h1 ▸ hyx
      · exact hy z h2

theorem sortFreq_perm : ∀ l : List (Nat × String × Nat), (sortFreq l).Perm l := by
  intro l
  induction l with
  | nil => simp [sortFreq]
  | cons x xs ih =>
    rw [sortFreq]
    exact (insSorted_perm x (sortFreq xs)).trans (ih.cons x)

theorem sortFreq_pairwise : ∀ l : List (Nat × String × Nat),
    (sortFreq l).Pairwise freqBefore := by
  intro l
  induction l with
  | nil => simp [sortFreq]
  | cons x xs ih => exact insSorted_pairwise ih

/-! ### Lemmas about the frequency dict -/

theorem lookupCount_bump_self (t : String) :
    ∀ acc : List (String × Nat), lookupCount (bump t acc) t = lookupCount acc t + 1 := by
  intro acc
  induction acc with
  | nil => simp [bump, lookupCount]
  | cons p rest ih =>
    obtain ⟨s, c⟩ := p
    by_cases hs : s = t
    · simp [bump, lookupCount, hs]
    · simp [bump, lookupCount, hs, ih]

theorem lookupCount_bump_ne {s t : String} (h : s ≠ t) :
    ∀ acc : List (String × Nat), lookupCount (bump t acc) s = lookupCount acc s := by
  have hts : t ≠ s := Ne.symm h
  intro acc
  induction acc with
  | nil => simp [bump, lookupCount, hts]
  | cons p rest ih =>
    obtain ⟨u, c⟩ := p
    by_cases hu : u = t
    · subst hu
      simp [bump, lookupCount, hts]
    · by_cases hus : u = s
      · subst hus
        simp [bump, lookupCount, hu]
      · simp [bump, lookupCount, hu, hus, ih]

theorem foldl_bump_lookup :
    ∀ (l : List String) (acc : List (String × Nat)) (t : String),
      lookupCount (l.foldl (fun a x => bump x a) acc) t = lookupCount acc t + l.count t := by
  intro l
  induction l with
  | nil => simp
  | cons x xs ih =>
    intro acc t
    rw [List.foldl_cons, ih]
    by_cases hx : x = t
    · subst hx
      rw [lookupCount_bump_self]
      simp [List.count_cons]
      omega
    · rw [lookupCount_bump_ne (fun he => hx he.symm)]
      simp [List.count_cons, hx]

theorem bump_keys (t : String) :
    ∀ acc : List (String × Nat),
      (bump t acc).map Prod.fst =
        if t ∈ acc.map Prod.fst then acc.map Prod.fst else acc.map Prod.fst ++ [t] := by
  intro acc
  induction acc with
  | nil => simp [bump]
  | cons p rest ih =>
    obtain ⟨s, c⟩ := p
    by_cases hs : s = t
    · subst hs
      simp [bump]
    · have hts : t ≠ s := Ne.symm hs
      by_cases ht : t ∈ rest.map Prod.fst
      · simp [bump, hs, ih, ht, hts]
      · simp [bump, hs, ih, ht, hts]

theorem foldl_bump_keys_nodup :
    ∀ (l : List String) (acc : List (String × Nat)),
      (acc.map Prod.fst).Nodup → ((l.foldl (fun a x => bump x a) acc).map Prod.fst).Nodup := by
  intro l
  induction l with
  | nil => intro acc h; simpa using h
  | cons x xs ih =>
    intro acc h
    rw [List.foldl_cons]
    refine ih (bump x acc) ?_
    rw [bump_keys]
    by_cases hx : x ∈ acc.map Prod.fst
    · simpa [hx] using h
    · rw [if_neg hx]
      simpa [List.nodup_append, hx] using h

theorem mem_assoc_lookup :
    ∀ (assoc : List (String × Nat)), (assoc.map Prod.fst).Nodup →
      ∀ {t : String} {c : Nat}, (t, c) ∈ assoc → c = lookupCount assoc t := by
  intro assoc
  induction assoc with
  | nil => intro _ t c h; cases h
  | cons p rest ih =>
    intro hnd t c h
    obtain ⟨s, d⟩ := p
    rw [List.map_cons] at hnd
    obtain ⟨hs_notin, hnd'⟩ := List.nodup_cons.1 hnd
    rcases List.mem_cons.1 h with h1 | h2
    · have he1 : t = s := congrArg Prod.fst h1
      have he2 : c = d := congrArg Prod.snd h1
      subst he1
      subst he2
      simp [lookupCount]
    · have hs : s ≠ t := by
        intro he
        subst he
        exact hs_notin (List.mem_map.2 ⟨(s, c), h2, rfl⟩)
      simp only [lookupCount, if_neg hs]
      exact ih hnd' h2

theorem dedupFirstEx_congr :
    ∀ (l s₁ s₂ : List String), (∀ x, x ∈ s₁ ↔ x ∈ s₂) →
      dedupFirstEx s₁ l = dedupFirstEx s₂ l := by
  intro l
  induction l with
  | nil => intro s₁ s₂ _; rfl
  | cons t ts ih =>
    intro s₁ s₂ h
    by_cases ht : t ∈ s₁
    · rw [dedupFirstEx, if_pos ht, dedupFirstEx, if_pos ((h t).1 ht)]
      exact ih s₁ s₂ h
    · rw [dedupFirstEx, if_neg ht, dedupFirstEx, if_neg (fun hx => ht ((h t).2 hx))]
      refine congrArg _ (ih (t :: s₁) (t :: s₂) ?_)
      intro x
      simp [h x]

theorem foldl_bump_keys :
    ∀ (l : List String) (acc : List (String × Nat)),
      (l.foldl (fun a x => bump x a) acc).map Prod.fst =
        acc.map Prod.fst ++ dedupFirstEx (acc.map Prod.fst) l := by
  intro l
  induction l with
  | nil => intro acc; simp [dedupFirstEx]
  | cons x xs ih =>
    intro acc
    rw [List.foldl_cons, ih, bump_keys]
    by_cases hx : x ∈ acc.map Prod.fst
    · rw [if_pos hx, dedupFirstEx, if_pos hx]
    · rw [if_neg hx, dedupFirstEx, if_neg hx]
      rw [dedupFirstEx_congr xs (acc.map Prod.fst ++ [x]) (x :: acc.map Prod.fst)
        (by intro y; simp; tauto)]
      simp

theorem buildFreq_keys (l : List String) :
    (buildFreq l).map Prod.fst = dedupFirstEx [] l := by
  rw [buildFreq, foldl_bump_keys]
  simp

theorem buildFreq_keys_nodup (l : List String) : ((buildFreq l).map Prod.fst).Nodup :=
  foldl_bump_keys_nodup l [] (by simp)

theorem buildFreq_count {l : List String} {t : String} {c : Nat}
    (h : (t, c) ∈ buildFreq l) : c = l.count t := by
  have h1 := mem_assoc_lookup (buildFreq l) (buildFreq_keys_nodup l) h
  have h2 := foldl_bump_lookup l [] t
  rw [buildFreq] at h1
  rw [h1, h2]
  simp [lookupCount]

theorem mem_dedupFirstEx :
    ∀ (l seen : List String) {x : String}, x ∈ dedupFirstEx seen l → x ∈ l ∧ x ∉ seen := by
  intro l
  induction l with
  | nil => intro seen x h; cases h
  | cons t ts ih =>
    intro seen x h
    by_cases ht : t ∈ seen
    · rw [dedupFirstEx, if_pos ht] at h
      obtain ⟨h1, h2⟩ := ih seen h
      exact ⟨List.mem_cons_of_mem t h1, h2⟩
    · rw [dedupFirstEx, if_neg ht] at h
      rcases List.mem_cons.1 h with h1 | h2
      · subst h1
        exact ⟨List.mem_cons_self x ts, ht⟩
      · obtain ⟨h1, h2⟩ := ih (t :: seen) h2
        exact ⟨List.mem_cons_of_mem t h1, fun hx => h2 (List.mem_cons_of_mem t hx)⟩

theorem buildFreq_mem {l : List String} {t : String} {c : Nat}
    (h : (t, c) ∈ buildFreq l) : t ∈ l := by
  have hk : t ∈ (buildFreq l).map Prod.fst := List.mem_map.2 ⟨(t, c), h, rfl⟩
  rw [buildFreq_keys] at hk
  exact (mem_dedupFirstEx l [] hk).1

theorem listIndex_cons_ne {x a : String} (h : x ≠ a) (xs : List String) :
    listIndex a (x :: xs) = listIndex a xs + 1 := by
  simp [listIndex, h]

theorem dedupFirstEx_pairwise_listIndex :
    ∀ (l seen : List String),
      (dedupFirstEx seen l).Pairwise (fun a b => listIndex a l < listIndex b l) := by
  intro l
  induction l with
  | nil => intro seen; simp [dedupFirstEx]
  | cons x xs ih =>
    intro seen
    have hshift : ∀ {S : List String}, (∀ z ∈ S, z ≠ x) →
        S.Pairwise (fun a b => listIndex a xs < listIndex b xs) →
        S.Pairwise (fun a b => listIndex a (x :: xs) < listIndex b (x :: xs)) := by
      intro S hS hp
      refine hp.imp_of_mem ?_
      intro a b ha hb hR
      rw [listIndex_cons_ne (Ne.symm (hS a ha)) xs]
      rw [listIndex_cons_ne (Ne.symm (hS b hb)) xs]
      omega
    by_cases hx : x ∈ seen
    · rw [dedupFirstEx, if_pos hx]
      refine hshift ?_ (ih seen)
      intro z hz he
      refine (mem_dedupFirstEx xs seen hz).2 ?_
      rw [he]
      exact hx
    · rw [dedupFirstEx, if_neg hx]
      refine List.Pairwise.cons ?_ ?_
      · intro b hb
        have hbx : b ≠ x := by
          intro he
          refine (mem_dedupFirstEx xs (x :: seen) hb).2 ?_
          rw [he]
          exact List.mem_cons_self x seen
        rw [show listIndex x (x :: xs) = 0 from by simp [listIndex]]
        rw [listIndex_cons_ne (Ne.symm hbx) xs]
        omega
      · refine hshift ?_ (ih (x :: seen))
        intro z hz he
        refine (mem_dedupFirstEx xs (x :: seen) hz).2 ?_
        rw [he]
        exact List.mem_cons_self x seen

/-! ### Lemmas about `withRanks` -/

theorem withRanks_map_snd :
    ∀ (L : List (String × Nat)) (i : Nat), (withRanks i L).map Prod.snd = L := by
  intro L
  induction L with
  | nil => intro i; rfl
  | cons p rest ih =>
    intro i
    obtain ⟨t, c⟩ := p
    simp [withRanks, ih]

theorem withRanks_get :
    ∀ (L : List (String × Nat)) (i : Nat) {x : Nat × String × Nat},
      x ∈ withRanks i L → i ≤ x.1 ∧ L.get? (x.1 - i) = some x.2 := by
  intro L
  induction L with
  | nil => intro i x h; cases h
  | cons p rest ih =>
    intro i x h
    obtain ⟨t, c⟩ := p
    rcases List.mem_cons.1 h with h1 | h2
    · subst h1
      simp
    · obtain ⟨h1, h2⟩ := ih (i + 1) h2
      refine ⟨by omega, ?_⟩
      have he : x.1 - i = (x.1 - (i + 1)) + 1 := by omega
      rw [he]
      simpa using h2

theorem withRanks_fst_pairwise :
    ∀ (L : List (String × Nat)) (i : Nat),
      (withRanks i L).Pairwise (fun a b => a.1 < b.1) := by
  intro L
  induction L with
  | nil => intro i; simp [withRanks]
  | cons p rest ih =>
    intro i
    obtain ⟨t, c⟩ := p
    refine List.Pairwise.cons ?_ (ih (i + 1))
    intro y hy
    have h1 := (withRanks_get rest (i + 1) hy).1
    show i < y.1
    omega

/-! ### Shape of the extracted terms -/

theorem mem_words {text t : String} (h : t ∈ words text) :
    t.data ≠ [] ∧ t.data <:+: text.data.map Char.toLower ∧
      ∀ c ∈ t.data, c.isAlpha = true ∧ c.isLower = true := by
  unfold words at h
  obtain ⟨w, hwf, hmk⟩ := List.mem_map.1 h
  obtain ⟨hw_mem, hw_cond⟩ := List.mem_filter.1 hwf
  rw [Bool.and_eq_true] at hw_cond
  obtain ⟨hw_ne, hw_alpha⟩ := hw_cond
  have hdata : t.data = w := by
    rw [← hmk]
  have hne : w ≠ [] := by
    intro he
    rw [he] at hw_ne
    simp at hw_ne
  have hinfix : w <:+: text.data.map Char.toLower :=
    splitRuns_piece_within _ _ w hw_mem
  refine ⟨by rw [hdata]; exact hne, by rw [hdata]; exact hinfix, ?_⟩
  intro c hc
  rw [hdata] at hc
  have halpha : c.isAlpha = true := (List.all_eq_true.1 hw_alpha) c hc
  have hc_mem : c ∈ text.data.map Char.toLower := hinfix.subset hc
  obtain ⟨c₀, _, hc₀⟩ := List.mem_map.1 hc_mem
  subst hc₀
  exact ⟨halpha, toLower_isLower_of_isAlpha halpha⟩

theorem mem_key_terms {text t : String} (h : t ∈ key_terms text) :
    3 < t.length ∧ t ∉ stopwords ∧ t.data ≠ [] ∧
      t.data <:+: text.data.map Char.toLower ∧
      ∀ c ∈ t.data, c.isAlpha = true ∧ c.isLower = true := by
  unfold key_terms at h
  obtain ⟨hw, hcond⟩ := List.mem_filter.1 h
  rw [Bool.and_eq_true] at hcond
  obtain ⟨hstop, hlen⟩ := hcond
  have hnotstop : t ∉ stopwords := by
    intro hmem
    rw [Bool.not_eq_true'] at hstop
    rw [List.contains_eq_any_beq] at hstop
    have : stopwords.any (t == ·) = true := by
      refine List.any_eq_true.2 ⟨t, hmem, ?_⟩
      simp
    rw [this] at hstop
    cases hstop
  obtain ⟨h1, h2, h3⟩ := mem_words hw
  exact ⟨by simpa using of_decide_eq_true hlen, hnotstop, h1, h2, h3⟩

theorem mem_rankedTerms {text : String} {x : Nat × String × Nat}
    (h : x ∈ rankedTerms text) : x ∈ withRanks 0 (buildFreq (key_terms text)) :=
  ((sortFreq_perm _).mem_iff).1 h

theorem mem_withRanks_buildFreq {text : String} {x : Nat × String × Nat}
    (h : x ∈ withRanks 0 (buildFreq (key_terms text))) :
    x.2 ∈ buildFreq (key_terms text) := by
  have : x.2 ∈ (withRanks 0 (buildFreq (key_terms text))).map Prod.snd :=
    List.mem_map.2 ⟨x, h, rfl⟩
  rwa [withRanks_map_snd] at this

theorem mem_extract_key_terms {text t : String} (h : t ∈ extract_key_terms text) :
    t ∈ key_terms text := by
  unfold extract_key_terms at h
  obtain ⟨x, hx, hxt⟩ := List.mem_map.1 h
  have hxS : x ∈ rankedTerms text := (List.take_sublist 10 _).subset hx
  have hxB := mem_withRanks_buildFreq (mem_rankedTerms hxS)
  have : x.2.1 ∈ key_terms text := buildFreq_mem (t := x.2.1) (c := x.2.2) hxB
  rwa [hxt] at this

theorem withRanks_count {text : String} {x : Nat × String × Nat}
    (h : x ∈ withRanks 0 (buildFreq (key_terms text))) :
    x.2.2 = (key_terms text).count x.2.1 :=
  buildFreq_count (mem_withRanks_buildFreq h)

theorem withRanks_rank_lt {text : String} {x y : Nat × String × Nat}
    (hx : x ∈ withRanks 0 (buildFreq (key_terms text)))
    (hy : y ∈ withRanks 0 (buildFreq (key_terms text)))
    (hlt : x.1 < y.1) :
    listIndex x.2.1 (key_terms text) < listIndex y.2.1 (key_terms text) := by
  set B := buildFreq (key_terms text) with hB
  have hgx := (withRanks_get B 0 hx).2
  have hgy := (withRanks_get B 0 hy).2
  rw [Nat.sub_zero] at hgx hgy
  have hkx : (B.map Prod.fst).get? x.1 = some x.2.1 := by
    rw [List.get?_map, hgx]
    rfl
  have hky : (B.map Prod.fst).get? y.1 = some y.2.1 := by
    rw [List.get?_map, hgy]
    rfl
  have hpw : (B.map Prod.fst).Pairwise
      (fun a b => listIndex a (key_terms text) < listIndex b (key_terms text)) := by
    rw [hB, buildFreq_keys]
    exact dedupFirstEx_pairwise_listIndex (key_terms text) []
  obtain ⟨hxlt, hgx'⟩ := List.get?_eq_some.1 hkx
  obtain ⟨hylt, hgy'⟩ := List.get?_eq_some.1 hky
  have := List.pairwise_iff_get.1 hpw ⟨x.1, hxlt⟩ ⟨y.1, hylt⟩ (by simpa using hlt)
  rwa [hgx', hgy'] at this

theorem extract_key_terms_nodup (text : String) : (extract_key_terms text).Nodup := by
  have hkeys : ((buildFreq (key_terms text)).map Prod.fst).Nodup := buildFreq_keys_nodup _
  have he : (withRanks 0 (buildFreq (key_terms text))).map (fun x => x.2.1) =
      (buildFreq (key_terms text)).map Prod.fst := by
    have h1 : (withRanks 0 (buildFreq (key_terms text))).map (fun x => x.2.1) =
        ((withRanks 0 (buildFreq (key_terms text))).map Prod.snd).map Prod.fst := by
      rw [List.map_map]
      rfl
    rw [h1, withRanks_map_snd]
  have hwr : ((withRanks 0 (buildFreq (key_terms text))).map (fun x => x.2.1)).Nodup := by
    rwa [he]
  have hperm : ((rankedTerms text).map (fun x => x.2.1)).Perm
      ((withRanks 0 (buildFreq (key_terms text))).map (fun x => x.2.1)) :=
    (sortFreq_perm _).map _
  have hSnodup : ((rankedTerms text).map (fun x => x.2.1)).Nodup := hperm.symm.nodup hwr
  exact List.Nodup.sublist
    (List.Sublist.map _ (List.take_sublist 10 (rankedTerms text))) hSnodup

theorem extract_key_terms_sorted (text : String) :
    (extract_key_terms text).Pairwise (fun a b =>
      freqIn text b < freqIn text a ∨
        (freqIn text a = freqIn text b ∧ firstPos text a < firstPos text b)) := by
  have hP : (rankedTerms text).Pairwise freqBefore := sortFreq_pairwise _
  have hwrNodup : ((withRanks 0 (buildFreq (key_terms text))).map (fun x => x.1)).Nodup := by
    have h0 : (withRanks 0 (buildFreq (key_terms text))).Pairwise
        (fun a b => (fun x : Nat × String × Nat => x.1) a ≠ (fun x : Nat × String × Nat => x.1) b) :=
      (withRanks_fst_pairwise _ 0).imp Nat.ne_of_lt
    exact List.pairwise_map.2 h0
  have hSNodup : ((rankedTerms text).map (fun x => x.1)).Nodup :=
    (((sortFreq_perm _).map _).symm).nodup hwrNodup
  have hRanksNe : (rankedTerms text).Pairwise (fun a b => a.1 ≠ b.1) :=
    List.pairwise_map.1 hSNodup
  have hmain : (rankedTerms text).Pairwise (fun a b =>
      (key_terms text).count b.2.1 < (key_terms text).count a.2.1 ∨
        ((key_terms text).count a.2.1 = (key_terms text).count b.2.1 ∧
          listIndex a.2.1 (key_terms text) < listIndex b.2.1 (key_terms text))) := by
    refine (hP.and hRanksNe).imp_of_mem ?_
    intro a b ha hb hab
    obtain ⟨hfb, hne⟩ := hab
    have haW := mem_rankedTerms ha
    have hbW := mem_rankedTerms hb
    have hca := withRanks_count haW
    have hcb := withRanks_count hbW
    rcases hfb with h | ⟨heq, hle⟩
    · left
      rw [← hca, ← hcb]
      exact h
    · right
      refine ⟨by rw [← hca, ← hcb]; exact heq, ?_⟩
      exact withRanks_rank_lt haW hbW (lt_of_le_of_ne hle hne)
  have htake := hmain.sublist (List.take_sublist 10 (rankedTerms text))
  unfold extract_key_terms
  rw [List.pairwise_map]
  exact htake

/-! ### Lemmas about the question pipeline -/

theorem create_definition_snd (s k : List String) (r : List Nat) :
    (create_definition_question s k r).2 = streamAfterDefinition k r := by
  unfold create_definition_question streamAfterDefinition
  by_cases h : k = []
  · rw [if_pos h, if_pos h]
  · rw [if_neg h, if_neg h]
    simp [definitionOptions, List.drop_drop]

theorem create_comprehension_snd (s k : List String) (r : List Nat) :
    (create_comprehension_question s k r).2 = if s = [] then r else (r.tail).drop 4 := by
  unfold create_comprehension_question
  by_cases h : s = []
  · rw [if_pos h, if_pos h]
  · rw [if_neg h, if_neg h]
    simp [comprehensionOptions, List.drop_drop]

theorem gqq_unfold (text : String) (r : List Nat) :
    generate_quiz_questions text r =
      [(create_definition_question (extract_sentences text) (extract_key_terms text) r).1,
       (create_comprehension_question (extract_sentences text) (extract_key_terms text)
         ((create_definition_question (extract_sentences text) (extract_key_terms text) r).2)).1,
       (create_inference_question (extract_sentences text) (extract_key_terms text)
         ((create_comprehension_question (extract_sentences text) (extract_key_terms text)
           ((create_definition_question (extract_sentences text) (extract_key_terms text)
             r).2)).2)).1] := rfl

theorem definition_record (s k : List String) (r : List Nat) (h : ¬k = []) :
    (create_definition_question s k r).1 =
      { question := "What is the main focus regarding \x27" ++ pyChoice (k.take 5) r ++
          "\x27 in the text?"
        options := pyShuffle (definitionOptions (pyChoice (k.take 5) r)) r.tail
        correct_answer := listIndex (definitionCorrect (pyChoice (k.take 5) r))
          (pyShuffle (definitionOptions (pyChoice (k.take 5) r)) r.tail)
        explanation := "The correct answer focuses on how " ++ pyChoice (k.take 5) r ++
          " relates to the main content." } := by
  unfold create_definition_question
  rw [if_neg h]

theorem comprehension_record (s k : List String) (r : List Nat) (h : ¬s = []) :
    (create_comprehension_question s k r).1 =
      { question := "According to the text, which statement is most accurate?"
        options := pyShuffle (comprehensionOptions (pyChoice (s.take 3) r)) r.tail
        correct_answer := listIndex (comprehensionCorrect (pyChoice (s.take 3) r))
          (pyShuffle (comprehensionOptions (pyChoice (s.take 3) r)) r.tail)
        explanation := "This option best reflects the content mentioned in the text." } := by
  unfold create_comprehension_question
  rw [if_neg h]

theorem correct_in_shuffle {opts : List String} {correct : String}
    (hc : correct ∈ opts) (r : List Nat) :
    listIndex correct (pyShuffle opts r) < (pyShuffle opts r).length ∧
      (pyShuffle opts r).getD (listIndex correct (pyShuffle opts r)) "" = correct := by
  have hm : correct ∈ pyShuffle opts r := pyShuffle_mem r hc
  exact ⟨listIndex_lt hm, getD_listIndex hm⟩

/-- C1: for every input text and every behaviour of the random source, each
question record returned by `generate_quiz_questions` satisfies
`options[correct_answer] =` the strategy's designated correct-answer text
(`designatedAnswer`); in particular, after the shuffle in the definition and
comprehension strategies the correct index is recomputed by locating the
correct-answer text in the shuffled option sequence. -/
theorem c1_correct_answer_invariant (text : String) (r : List Nat) (i : Nat)
    (hi : i < 3) :
    ((generate_quiz_questions text r).getD i emptyRecord).correct_answer <
        ((generate_quiz_questions text r).getD i emptyRecord).options.length ∧
      ((generate_quiz_questions text r).getD i emptyRecord).options.getD
          ((generate_quiz_questions text r).getD i emptyRecord).correct_answer "" =
        designatedAnswer (extract_sentences text) (extract_key_terms text) r i := by
  rw [gqq_unfold]
  interval_cases i
  · simp only [List.getD_cons_zero]
    by_cases hk : extract_key_terms text = []
    · rw [create_definition_question, if_pos hk]
      simp [create_fallback_question, fallbackOptions, designatedAnswer, hk]
    · rw [definition_record _ _ _ hk]
      have hc : definitionCorrect (pyChoice ((extract_key_terms text).take 5) r) ∈
          definitionOptions (pyChoice ((extract_key_terms text).take 5) r) := by
        simp [definitionOptions]
      obtain ⟨h1, h2⟩ := correct_in_shuffle hc r.tail
      refine ⟨h1, ?_⟩
      rw [h2]
      simp [designatedAnswer, hk]
  · simp only [List.getD_cons_succ, List.getD_cons_zero]
    rw [create_definition_snd]
    by_cases hs : extract_sentences text = []
    · rw [create_comprehension_question, if_pos hs]
      simp [create_fallback_question, fallbackOptions, designatedAnswer, hs]
    · rw [comprehension_record _ _ _ hs]
      have hc : comprehensionCorrect
          (pyChoice ((extract_sentences text).take 3)
            (streamAfterDefinition (extract_key_terms text) r)) ∈
          comprehensionOptions
            (pyChoice ((extract_sentences text).take 3)
              (streamAfterDefinition (extract_key_terms text) r)) := by
        simp [comprehensionOptions]
      obtain ⟨h1, h2⟩ := correct_in_shuffle hc
        (streamAfterDefinition (extract_key_terms text) r).tail
      refine ⟨h1, ?_⟩
      rw [h2]
      simp [designatedAnswer, hs]
  · simp only [List.getD_cons_succ, List.getD_cons_zero]
    refine ⟨by simp [create_inference_question, inferenceOptions], ?_⟩
    simp [create_inference_question, inferenceOptions, designatedAnswer]

/-- C1 witness: the invariant evaluated at a concrete input. -/
theorem c1_witness :
    (0 : Nat) < 3 ∧
      (((generate_quiz_questions "x" []).getD 0 emptyRecord).correct_answer <
          ((generate_quiz_questions "x" []).getD 0 emptyRecord).options.length ∧
        ((generate_quiz_questions "x" []).getD 0 emptyRecord).options.getD
            ((generate_quiz_questions "x" []).getD 0 emptyRecord).correct_answer "" =
          designatedAnswer (extract_sentences "x") (extract_key_terms "x") [] 0) :=
  ⟨by decide, c1_correct_answer_invariant "x" [] 0 (by decide)⟩

/-- C4: for every input text and draw list, `generate_quiz_questions` returns
exactly 3 records, built in fixed order by the definition (slot 0),
comprehension (slot 1) and inference (slot 2) strategies, threading the draw
list from one strategy to the next. -/
theorem c4_three_fixed_strategies (text : String) (r : List Nat) :
    (generate_quiz_questions text r).length = 3 ∧
      generate_quiz_questions text r =
        [(create_definition_question (extract_sentences text) (extract_key_terms text) r).1,
         (create_comprehension_question (extract_sentences text) (extract_key_terms text)
           ((create_definition_question (extract_sentences text) (extract_key_terms text)
             r).2)).1,
         (create_inference_question (extract_sentences text) (extract_key_terms text)
           ((create_comprehension_question (extract_sentences text) (extract_key_terms text)
             ((create_definition_question (extract_sentences text) (extract_key_terms text)
               r).2)).2)).1] := by
  refine ⟨?_, gqq_unfold text r⟩
  rw [gqq_unfold]
  rfl

/-- C6: the generators are total: for every text, topic and draw list the
system returns exactly 2 assignments and 3 questions, and when there are no
extractable terms (resp. sentences) the definition (resp. comprehension) slot
is the fixed fallback record. -/
theorem c6_totality_and_fallback (text : String) (topic : Option String) (r : List Nat) :
    (generate_assignments text topic r).length = 2 ∧
      (generate_quiz_questions text r).length = 3 ∧
      (extract_key_terms text = [] →
        (generate_quiz_questions text r).getD 0 emptyRecord =
          create_fallback_question (extract_sentences text)) ∧
      (extract_sentences text = [] →
        (generate_quiz_questions text r).getD 1 emptyRecord =
          create_fallback_question (extract_sentences text)) := by
  refine ⟨?_, (c4_three_fixed_strategies text r).1, ?_, ?_⟩
  · unfold generate_assignments pySample2
    have hlt : r.headD 0 % assignment_templates.length < assignment_templates.length := by
      have : assignment_templates.length = 8 := by decide
      rw [this]
      exact Nat.mod_lt _ (by omega)
    obtain ⟨y, ys, hp, _⟩ := pickOut_some assignment_templates _ hlt
    rw [hp]
    rfl
  · intro hk
    rw [gqq_unfold]
    simp only [List.getD_cons_zero]
    rw [create_definition_question, if_pos hk]
  · intro hs
    rw [gqq_unfold]
    simp only [List.getD_cons_succ, List.getD_cons_zero]
    rw [create_definition_snd, create_comprehension_question, if_pos hs]

/-- C6 witness: on the degenerate input `"x"` both special slots are the
fallback record and the counts are as contracted. -/
theorem c6_witness :
    extract_key_terms "x" = [] ∧ extract_sentences "x" = [] ∧
      (generate_assignments "x" none []).length = 2 ∧
      (generate_quiz_questions "x" []).getD 0 emptyRecord =
        create_fallback_question (extract_sentences "x") ∧
      (generate_quiz_questions "x" []).getD 1 emptyRecord =
        create_fallback_question (extract_sentences "x") :=
  ⟨by decide, by decide, (c6_totality_and_fallback "x" none []).1,
    (c6_totality_and_fallback "x" none []).2.2.1 (by decide),
    (c6_totality_and_fallback "x" none []).2.2.2 (by decide)⟩

/-- C3: `extract_key_terms` returns at most 10 terms, without duplicates,
each a nonempty lowercase alphabetic string of length > 3 that is not a
stopword, ordered by strictly non-increasing frequency among the filtered
tokens with ties broken by first occurrence in the text. -/
theorem c3_key_term_ranking (text : String) :
    (extract_key_terms text).length ≤ 10 ∧
      (extract_key_terms text).Nodup ∧
      (∀ t ∈ extract_key_terms text, 3 < t.length ∧ t ∉ stopwords ∧ t.data ≠ [] ∧
        ∀ c ∈ t.data, c.isAlpha = true ∧ c.isLower = true) ∧
      (extract_key_terms text).Pairwise (fun a b =>
        freqIn text b < freqIn text a ∨
          (freqIn text a = freqIn text b ∧ firstPos text a < firstPos text b)) := by
  refine ⟨?_, extract_key_terms_nodup text, ?_, extract_key_terms_sorted text⟩
  · unfold extract_key_terms
    rw [List.length_map, List.length_take]
    exact min_le_left _ _
  · intro t ht
    obtain ⟨h1, h2, h3, _, h5⟩ := mem_key_terms (mem_extract_key_terms ht)
    exact ⟨h1, h2, h3, h5⟩

/-- C3 witness: the ranking evaluated at a concrete input. -/
theorem c3_witness :
    (extract_key_terms "zebra zebra lion").length ≤ 10 ∧
      (extract_key_terms "zebra zebra lion").Nodup :=
  ⟨(c3_key_term_ranking "zebra zebra lion").1, (c3_key_term_ranking "zebra zebra lion").2.1⟩

/-- C7: when at least one sentence exists, the comprehension strategy picks a
sentence from the first 3 extracted sentences (and each of those is picked
for some draw), and the designated correct option text is
`"The text mentions: "` followed by the first 50 characters of the chosen
sentence followed by `"..."` (the whole sentence when it has at most 50
characters, with no word-boundary adjustment). -/
theorem c7_comprehension_sentence (sentences key_terms : List String) (r : List Nat)
    (h : sentences ≠ []) :
    pyChoice (sentences.take 3) r ∈ sentences.take 3 ∧
      ((create_comprehension_question sentences key_terms r).1).options.getD
          ((create_comprehension_question sentences key_terms r).1).correct_answer "" =
        "The text mentions: " ++ take50 (pyChoice (sentences.take 3) r) ++ "..." ∧
      ((pyChoice (sentences.take 3) r).length ≤ 50 →
        take50 (pyChoice (sentences.take 3) r) = pyChoice (sentences.take 3) r) ∧
      ∀ i, i < (sentences.take 3).length →
        ∃ r2, pyChoice (sentences.take 3) r2 = (sentences.take 3).getD i "" := by
  have htk : sentences.take 3 ≠ [] := by
    rcases sentences with _ | ⟨x, xs⟩
    · exact absurd rfl h
    · simp
  refine ⟨pyChoice_mem r htk, ?_, ?_, ?_⟩
  · rw [comprehension_record _ _ _ h]
    have hc : comprehensionCorrect (pyChoice (sentences.take 3) r) ∈
        comprehensionOptions (pyChoice (sentences.take 3) r) := by
      simp [comprehensionOptions]
    obtain ⟨_, h2⟩ := correct_in_shuffle hc r.tail
    rw [h2]
    rfl
  · intro hlen
    unfold take50
    have he : (pyChoice (sentences.take 3) r).data.take 50 =
        (pyChoice (sentences.take 3) r).data := List.take_of_length_le hlen
    rw [he]
  · intro i hlt
    refine ⟨[i], ?_⟩
    unfold pyChoice
    rw [show ([i] : List Nat).headD 0 = i from rfl, Nat.mod_eq_of_lt hlt]

/-- C7 witness: the sentence choice evaluated at a concrete input. -/
theorem c7_witness :
    (["hello world"] : List String) ≠ [] ∧
      pyChoice (List.take 3 ["hello world"]) [] ∈ List.take 3 ["hello world"] :=
  ⟨by decide, (c7_comprehension_sentence ["hello world"] [] [] (by decide)).1⟩

/-- C8: every sentence returned by `extract_sentences` is a stripped piece of
the text of length > 10 containing no sentence delimiter, and the result
preserves the document order of the split pieces. -/
theorem c8_extract_sentences (text : String) :
    (∀ s ∈ extract_sentences text,
        10 < s.length ∧ pyStrip s.data = s.data ∧ s.data <:+: text.data ∧
          ∀ c ∈ s.data, isSentenceDelim c = false) ∧
      (extract_sentences text).Sublist
        ((splitRuns isSentenceDelim text.data).map (fun p => (⟨pyStrip p⟩ : String))) := by
  constructor
  · intro s hs
    unfold extract_sentences at hs
    obtain ⟨q, hqf, hqs⟩ := List.mem_map.1 hs
    obtain ⟨hq_mem, hq_len⟩ := List.mem_filter.1 hqf
    obtain ⟨piece, hpiece, hstrip⟩ := List.mem_map.1 hq_mem
    have hdata : s.data = q := by rw [← hqs]
    subst hstrip
    refine ⟨?_, ?_, ?_, ?_⟩
    · show 10 < s.data.length
      rw [hdata]
      exact of_decide_eq_true hq_len
    · rw [hdata]
      exact pyStrip_idem piece
    · rw [hdata]
      exact (pyStrip_within piece).trans (splitRuns_piece_within _ _ piece hpiece)
    · intro c hc
      rw [hdata] at hc
      exact splitRuns_all_not _ _ piece hpiece c (pyStrip_subset piece c hc)
  · unfold extract_sentences
    have he : (fun p => (⟨pyStrip p⟩ : String)) =
        (fun q : List Char => (⟨q⟩ : String)) ∘ pyStrip := rfl
    rw [he, ← List.map_map]
    exact List.Sublist.map _ (List.filter_sublist _)

/-- C8 witness: sentence extraction evaluated at a concrete input. -/
theorem c8_witness :
    "Cats are nice" ∈ extract_sentences "Cats are nice. Cats are furry animals that purr." ∧
      10 < ("Cats are nice" : String).length :=
  ⟨by decide,
    ((c8_extract_sentences "Cats are nice. Cats are furry animals that purr.").1
      "Cats are nice" (by decide)).1⟩

/-- C2 counterexample: on the input `"abc123def"` the tokenizer returns no
candidate tokens at all, not the tokens `"abc"` and `"def"` that the claim
predicts: `\b` places no word boundary between a letter and a digit, so a
letter run adjacent to a digit never matches `\b[a-zA-Z]+\b`. -/
theorem c2_counterexample :
    words "abc123def" = [] ∧ words "abc123def" ≠ ["abc", "def"] := by
  decide

/-- C2 amended: the tokenizer splits the lowercased text at maximal runs of
word characters (letters, digits, underscore) and keeps a run only when it
consists entirely of ASCII letters; every candidate token is a nonempty
all-lowercase-letter infix of the lowered text and contains no digit.  A
letter run adjacent to a digit or underscore is discarded whole, never
split. -/
theorem c2_amended_tokenization (text : String) :
    ∀ t ∈ words text, t.data ≠ [] ∧ t.data <:+: text.data.map Char.toLower ∧
      ∀ c ∈ t.data, c.isAlpha = true ∧ c.isLower = true ∧ c.isDigit = false := by
  intro t ht
  obtain ⟨h1, h2, h3⟩ := mem_words ht
  refine ⟨h1, h2, ?_⟩
  intro c hc
  obtain ⟨ha, hl⟩ := h3 c hc
  exact ⟨ha, hl, isDigit_false_of_isLower hl⟩

/-- C2 witness: the amended tokenization evaluated at a concrete input. -/
theorem c2_witness :
    "abc" ∈ words "abc-def" ∧ ("abc" : String).data ≠ [] :=
  ⟨by decide, (c2_amended_tokenization "abc-def" "abc" (by decide)).1⟩

/-- C5: for every text, topic and draw list, `generate_assignments` returns
exactly the fills of 2 distinct templates taken from the fixed pool of 8,
both filled with the same resolved subject; the two prompt strings are
distinct and each contains the resolved subject as a substring. -/
theorem c5_two_distinct_prompts (text : String) (topic : Option String) (r : List Nat) :
    ∃ t1 t2,
      t1 ∈ assignment_templates ∧ t2 ∈ assignment_templates ∧ t1 ≠ t2 ∧
      generate_assignments text topic r =
        [fillTemplate t1 (resolveSubject text topic),
         fillTemplate t2 (resolveSubject text topic)] ∧
      fillTemplate t1 (resolveSubject text topic) ≠
        fillTemplate t2 (resolveSubject text topic) ∧
      ∀ p ∈ generate_assignments text topic r,
        (resolveSubject text topic).data <:+: p.data := by
  have h8 : assignment_templates.length = 8 := by decide
  have hlt : r.headD 0 % assignment_templates.length < assignment_templates.length := by
    rw [h8]
    exact Nat.mod_lt _ (by omega)
  obtain ⟨y, ys, hp, hperm⟩ := pickOut_some assignment_templates _ hlt
  have hylen : ys.length = 7 := by
    have hl := hperm.length_eq
    rw [h8] at hl
    simp at hl
    omega
  have ht2lt : r.tail.headD 0 % ys.length < ys.length := by
    rw [hylen]
    exact Nat.mod_lt _ (by omega)
  have ht2mem : ys.getD (r.tail.headD 0 % ys.length) "" ∈ ys := by
    rw [List.getD_eq_getElem _ _ ht2lt]
    exact List.getElem_mem ht2lt
  have hnodup : (y :: ys).Nodup := hperm.nodup (by decide)
  have hy_notin : y ∉ ys := (List.nodup_cons.1 hnodup).1
  have hymem : y ∈ assignment_templates := hperm.mem_iff.2 (List.mem_cons_self y ys)
  have ht2mem' : ys.getD (r.tail.headD 0 % ys.length) "" ∈ assignment_templates :=
    hperm.mem_iff.2 (List.mem_cons_of_mem y ht2mem)
  have hne : y ≠ ys.getD (r.tail.headD 0 % ys.length) "" := by
    intro he
    rw [he] at hy_notin
    exact hy_notin ht2mem
  have hga : generate_assignments text topic r =
      [fillTemplate y (resolveSubject text topic),
       fillTemplate (ys.getD (r.tail.headD 0 % ys.length) "") (resolveSubject text topic)] := by
    unfold generate_assignments pySample2
    rw [hp]
    rfl
  refine ⟨y, ys.getD (r.tail.headD 0 % ys.length) "", hymem, ht2mem', hne, hga, ?_, ?_⟩
  · intro he
    exact hne (fillTemplate_inj hymem ht2mem' _ he)
  · intro p hpmem
    rw [hga] at hpmem
    rcases List.mem_cons.1 hpmem with h1 | h2
    · rw [h1]
      exact fillTemplate_contains hymem _
    · rw [List.mem_singleton.1 h2]
      exact fillTemplate_contains ht2mem' _

/-- The definition strategy reads at most 5 draws. -/
theorem create_definition_agree (s k : List String) (r1 r2 : List Nat)
    (h : r1.take 5 = r2.take 5) :
    (create_definition_question s k r1).1 = (create_definition_question s k r2).1 := by
  by_cases hk : k = []
  · unfold create_definition_question
    rw [if_pos hk, if_pos hk]
  · rw [definition_record _ _ _ hk, definition_record _ _ _ hk]
    have hchoice : pyChoice (k.take 5) r1 = pyChoice (k.take 5) r2 :=
      pyChoice_agree _ (take_mono_agree (by omega) h)
    have htail : r1.tail.take 4 = r2.tail.take 4 := (take_succ_agree h).2
    have hshuf : pyShuffle (definitionOptions (pyChoice (k.take 5) r2)) r1.tail =
        pyShuffle (definitionOptions (pyChoice (k.take 5) r2)) r2.tail :=
      pyShuffle_agree _ (by simpa [definitionOptions] using htail)
    rw [hchoice, hshuf]

/-- The comprehension strategy reads at most 5 draws. -/
theorem create_comprehension_agree (s k : List String) (r1 r2 : List Nat)
    (h : r1.take 5 = r2.take 5) :
    (create_comprehension_question s k r1).1 = (create_comprehension_question s k r2).1 := by
  by_cases hs : s = []
  · unfold create_comprehension_question
    rw [if_pos hs, if_pos hs]
  · rw [comprehension_record _ _ _ hs, comprehension_record _ _ _ hs]
    have hchoice : pyChoice (s.take 3) r1 = pyChoice (s.take 3) r2 :=
      pyChoice_agree _ (take_mono_agree (by omega) h)
    have htail : r1.tail.take 4 = r2.tail.take 4 := (take_succ_agree h).2
    have hshuf : pyShuffle (comprehensionOptions (pyChoice (s.take 3) r2)) r1.tail =
        pyShuffle (comprehensionOptions (pyChoice (s.take 3) r2)) r2.tail :=
      pyShuffle_agree _ (by simpa [comprehensionOptions] using htail)
    rw [hchoice, hshuf]

/-- The draw lists left over after the definition slot still agree on the 5
draws the comprehension slot may read. -/
theorem streamAfterDefinition_agree (k : List String) (r1 r2 : List Nat)
    (h : r1.take 10 = r2.take 10) :
    (streamAfterDefinition k r1).take 5 = (streamAfterDefinition k r2).take 5 := by
  unfold streamAfterDefinition
  by_cases hk : k = []
  · rw [if_pos hk, if_pos hk]
    exact take_mono_agree (by omega) h
  · rw [if_neg hk, if_neg hk]
    have e1 : r1.tail.drop 4 = r1.drop 5 := by
      rw [← List.drop_one, List.drop_drop]
    have e2 : r2.tail.drop 4 = r2.drop 5 := by
      rw [← List.drop_one, List.drop_drop]
    rw [e1, e2]
    exact drop_take_agree h

/-- C9: determinism given an identical replay of the random source: two runs
with the same text and topic whose draw lists agree on the (at most 10)
draws the pipeline reads produce identical assignments and identical
question records, option order and correct indices included. -/
theorem c9_deterministic_replay (text : String) (topic : Option String)
    (r1 r2 : List Nat) (h : r1.take 10 = r2.take 10) :
    generate_assignments text topic r1 = generate_assignments text topic r2 ∧
      generate_quiz_questions text r1 = generate_quiz_questions text r2 := by
  constructor
  · unfold generate_assignments
    rw [pySample2_agree _ (take_mono_agree (by omega) h)]
  · rw [gqq_unfold, gqq_unfold]
    have h5 : r1.take 5 = r2.take 5 := take_mono_agree (by omega) h
    have hdef := create_definition_agree (extract_sentences text)
      (extract_key_terms text) r1 r2 h5
    have hstream := streamAfterDefinition_agree (extract_key_terms text) r1 r2 h
    have hcomp := create_comprehension_agree (extract_sentences text)
      (extract_key_terms text) (streamAfterDefinition (extract_key_terms text) r1)
      (streamAfterDefinition (extract_key_terms text) r2) hstream
    rw [create_definition_snd, create_definition_snd, hdef, hcomp]
    rfl

/-- C9 witness: replaying the same 10 draws (with extra unread draws
appended) yields identical output on a concrete input. -/
theorem c9_witness :
    ([1, 2, 3, 4, 5, 6, 7, 8, 9, 10] : List Nat).take 10 =
        ([1, 2, 3, 4, 5, 6, 7, 8, 9, 10, 11] : List Nat).take 10 ∧
      (generate_assignments "zebra zebra lion" none [1, 2, 3, 4, 5, 6, 7, 8, 9, 10] =
          generate_assignments "zebra zebra lion" none [1, 2, 3, 4, 5, 6, 7, 8, 9, 10, 11] ∧
        generate_quiz_questions "zebra zebra lion" [1, 2, 3, 4, 5, 6, 7, 8, 9, 10] =
          generate_quiz_questions "zebra zebra lion" [1, 2, 3, 4, 5, 6, 7, 8, 9, 10, 11]) :=
  ⟨by decide, c9_deterministic_replay "zebra zebra lion" none
    [1, 2, 3, 4, 5, 6, 7, 8, 9, 10] [1, 2, 3, 4, 5, 6, 7, 8, 9, 10, 11] (by decide)⟩

/-- The four pre-shuffle options of the definition strategy are pairwise
distinct for every nonempty all-lowercase term. -/
theorem definitionOptions_nodup {term : String} (hne : term.data ≠ [])
    (hlow : ∀ c ∈ term.data, c.isLower = true) :
    (definitionOptions term).Nodup := by
  obtain ⟨c, cs, hcons⟩ := List.exists_cons_of_ne_nil hne
  have hc : c.isLower = true := hlow c (by rw [hcons]; exact List.mem_cons_self c cs)
  have hcT : c ≠ 'T' := ne_T_of_isLower hc
  have hd1 : (definitionCorrect term).data.get? 0 = some 'T' := by
    unfold definitionCorrect
    rw [String.data_append, String.data_append, List.append_assoc,
      List.get?_append (by decide)]
    rfl
  have hd4 : ("The text contradicts common understanding of " ++ term).data.get? 0 =
      some 'T' := by
    rw [String.data_append, List.get?_append (by decide)]
    rfl
  have hd2 : ∀ suffix : String, (term ++ suffix).data.get? 0 = some c := by
    intro suffix
    rw [String.data_append, hcons]
    rfl
  have h9_1 : (definitionCorrect term).data.get? 9 = some 'd' := by
    unfold definitionCorrect
    rw [String.data_append, String.data_append, List.append_assoc,
      List.get?_append (by decide)]
    rfl
  have h9_4 : ("The text contradicts common understanding of " ++ term).data.get? 9 =
      some 'c' := by
    rw [String.data_append, List.get?_append (by decide)]
    rfl
  have headne : ∀ suffix : String, definitionCorrect term ≠ term ++ suffix := by
    intro suffix he
    have h0 := congrArg (fun s : String => s.data.get? 0) he
    simp only [] at h0
    rw [hd1, hd2 suffix] at h0
    exact hcT (Option.some.inj h0).symm
  have headne4 : ∀ suffix : String,
      term ++ suffix ≠ "The text contradicts common understanding of " ++ term := by
    intro suffix he
    have h0 := congrArg (fun s : String => s.data.get? 0) he
    simp only [] at h0
    rw [hd2 suffix, hd4] at h0
    exact hcT (Option.some.inj h0)
  have n14 : definitionCorrect term ≠
      "The text contradicts common understanding of " ++ term := by
    intro he
    have h0 := congrArg (fun s : String => s.data.get? 9) he
    simp only [] at h0
    rw [h9_1, h9_4] at h0
    exact absurd (Option.some.inj h0) (by decide)
  have n23 : term ++ " is completely unrelated to the main topic" ≠
      term ++ " is mentioned only in passing without significance" := by
    intro he
    have hdata := congrArg String.data he
    rw [String.data_append, String.data_append] at hdata
    have h1 := List.append_cancel_left hdata
    exact absurd h1 (by decide)
  simp only [definitionOptions, List.nodup_cons, List.mem_cons, List.mem_singleton,
    List.not_mem_nil, or_false, not_or]
  refine ⟨⟨headne _, headne _, n14⟩, ⟨n23, headne4 _⟩, headne4 _, ?_⟩
  simp

/-- The four pre-shuffle options of the comprehension strategy are pairwise
distinct for every sentence. -/
theorem comprehensionOptions_nodup (sentence : String) :
    (comprehensionOptions sentence).Nodup := by
  have h9_1 : (comprehensionCorrect sentence).data.get? 9 = some 'm' := by
    unfold comprehensionCorrect
    rw [String.data_append, String.data_append, List.append_assoc,
      List.get?_append (by decide)]
    rfl
  have hne : ∀ u : String, u.data.get? 9 ≠ some 'm' → comprehensionCorrect sentence ≠ u := by
    intro u hu he
    have h0 := congrArg (fun s : String => s.data.get? 9) he
    simp only [] at h0
    rw [h9_1] at h0
    exact hu h0.symm
  simp only [comprehensionOptions, List.nodup_cons, List.mem_cons, List.mem_singleton,
    List.not_mem_nil, or_false, not_or]
  refine ⟨⟨hne _ (by decide), hne _ (by decide), hne _ (by decide)⟩,
    ⟨by decide, by decide⟩, by decide, ?_⟩
  simp

/-- C10: for every key term and every sentence, the four option strings of
the definition and comprehension strategies are pairwise distinct (both
before and after shuffling), so locating the correct-answer text by first
occurrence identifies exactly the designated correct option: position `i`
holds the correct text iff `i` is the located index. -/
theorem c10_options_pairwise_distinct (text term : String)
    (hterm : term ∈ extract_key_terms text) (sentence : String) (r : List Nat) :
    (definitionOptions term).Nodup ∧
      (comprehensionOptions sentence).Nodup ∧
      (pyShuffle (definitionOptions term) r).Nodup ∧
      (pyShuffle (comprehensionOptions sentence) r).Nodup ∧
      (∀ i, i < (pyShuffle (definitionOptions term) r).length →
        ((pyShuffle (definitionOptions term) r).getD i "" = definitionCorrect term ↔
          i = listIndex (definitionCorrect term) (pyShuffle (definitionOptions term) r))) ∧
      (∀ i, i < (pyShuffle (comprehensionOptions sentence) r).length →
        ((pyShuffle (comprehensionOptions sentence) r).getD i "" =
            comprehensionCorrect sentence ↔
          i = listIndex (comprehensionCorrect sentence)
            (pyShuffle (comprehensionOptions sentence) r))) := by
  obtain ⟨_, _, hne, _, hchars⟩ := mem_key_terms (mem_extract_key_terms hterm)
  have hlow : ∀ c ∈ term.data, c.isLower = true := fun c hc => (hchars c hc).2
  have hnd := definitionOptions_nodup hne hlow
  have hnc := comprehensionOptions_nodup sentence
  have hndS : (pyShuffle (definitionOptions term) r).Nodup :=
    (pyShuffle_perm _ _).symm.nodup hnd
  have hncS : (pyShuffle (comprehensionOptions sentence) r).Nodup :=
    (pyShuffle_perm _ _).symm.nodup hnc
  refine ⟨hnd, hnc, hndS, hncS, ?_, ?_⟩
  · intro i hi
    constructor
    · intro hg
      exact listIndex_unique hndS hi hg
    · intro hieq
      rw [hieq]
      exact getD_listIndex (pyShuffle_mem r (by simp [definitionOptions]))
  · intro i hi
    constructor
    · intro hg
      exact listIndex_unique hncS hi hg
    · intro hieq
      rw [hieq]
      exact getD_listIndex (pyShuffle_mem r (by simp [comprehensionOptions]))

/-- C10 witness: the distinctness evaluated at a concrete input. -/
theorem c10_witness :
    "zebra" ∈ extract_key_terms "zebra zebra lion" ∧
      (definitionOptions "zebra").Nodup ∧ (comprehensionOptions "a sentence").Nodup :=
  ⟨by decide,
    (c10_options_pairwise_distinct "zebra zebra lion" "zebra" (by decide) "a sentence" []).1,
    (c10_options_pairwise_distinct "zebra zebra lion" "zebra" (by decide) "a sentence"
      []).2.1⟩

/-- C5 witness: the assignment generation evaluated at a concrete input. -/
theorem c5_witness :
    (generate_assignments "zebra zebra lion" none [0, 0]).length = 2 ∧
      ∃ t1 t2,
        t1 ∈ assignment_templates ∧ t2 ∈ assignment_templates ∧ t1 ≠ t2 ∧
        generate_assignments "zebra zebra lion" none [0, 0] =
          [fillTemplate t1 (resolveSubject "zebra zebra lion" none),
           fillTemplate t2 (resolveSubject "zebra zebra lion" none)] ∧
        fillTemplate t1 (resolveSubject "zebra zebra lion" none) ≠
          fillTemplate t2 (resolveSubject "zebra zebra lion" none) ∧
        ∀ p ∈ generate_assignments "zebra zebra lion" none [0, 0],
          (resolveSubject "zebra zebra lion" none).data <:+: p.data :=
  ⟨by decide, c5_two_distinct_prompts "zebra zebra lion" none [0, 0]⟩

end QuizGen
